import Mathlib

/-!
Verification of the sparse Merkle proof module of the `jellyfish_merkle` crate.

The embedding covers `src/proof/mod.rs` (the verifier `verify_sparse_merkle_element`
and the two node hashers), `src/proof/definition.rs` (`SparseMerkleProof` with its
constructor invariant, and the `SparseMerkleBitmap` codec) and `src/account/mod.rs`
(`AccountStateBlob` and its hashing).  The hash primitive (`HashValue`, the
domain-separated hashers and the placeholder constant) lives outside the crate's
source tree, so it is modelled abstractly from the specification.
-/

set_option linter.unusedVariables false

namespace JellyfishMerkle

/-- Modelled from the spec: the hash primitive and the domain-separated hasher are
external collaborators, absent from the crate's sources.  Per the spec a hash value
is a fixed-width sequence of `lengthInBits` bits with most-significant-bit-first
indexing; the hasher provides domain-separated digests for internal nodes
(`SparseMerkleInternalHasher`), leaf nodes (`SparseMerkleLeafHasher`) and account
blobs (`AccountStateBlobHasher`), plus the placeholder constant
`SPARSE_MERKLE_PLACEHOLDER_HASH` for empty subtrees.  A hash value is represented
as a `List Bool`, most significant bit first; an account blob is its byte list. -/
structure HasherModel where
  lengthInBits : Nat
  placeholder : List Bool
  internalHash : List Bool → List Bool → List Bool
  leafHash : List Bool → List Bool → List Bool
  blobHash : List Nat → List Bool

/-- Modelled from the spec: `HashValue::common_prefix_bits_len`, provided by the
external hash primitive, returns the count of leading bits the two MSB-first bit
sequences share. -/
def commonPrefixBitsLen : List Bool → List Bool → Nat
  | a :: restA, b :: restB => if a = b then commonPrefixBitsLen restA restB + 1 else 0
  | _, _ => 0

/-- `SparseMerkleProof` from `src/proof/definition.rs`: an optional leaf descriptor
`(key, value_hash)` and the sibling list, siblings near the root first. -/
structure SparseMerkleProof where
  leaf : Option (List Bool × List Bool)
  siblings : List (List Bool)
deriving DecidableEq

/-- `SparseMerkleProof::new` from `src/proof/definition.rs`.  The Rust constructor
asserts (`assert_ne!`) that the bottom-most sibling, when the list is non-empty, is
not the placeholder hash; the panic is modelled as `none`. -/
def SparseMerkleProof.new (M : HasherModel) (leaf : Option (List Bool × List Bool))
    (siblings : List (List Bool)) : Option SparseMerkleProof :=
  match siblings.getLast? with
  | some lastSibling =>
      if lastSibling = M.placeholder then none
      else some ⟨leaf, siblings⟩
  | none => some ⟨leaf, siblings⟩

/-- The distinct failure outcomes of `verify_sparse_merkle_element`
(`src/proof/mod.rs`), one per `ensure!`/`bail!` site, named as in the spec's
error taxonomy. -/
inductive VerifyError where
  | tooManySiblings
  | keyMismatch
  | valueMismatch
  | expectedInclusionFoundNonInclusion
  | nonInclusionKeyExists
  | invalidNonInclusionProof
  | rootMismatch
deriving DecidableEq

/-- Decidable equality of verification outcomes, so that concrete runs of the
verifier can be checked by evaluation. -/
instance : DecidableEq (Except VerifyError Unit) := fun a b =>
  match a, b with
  | Except.ok x, Except.ok y => isTrue (by cases x; cases y; rfl)
  | Except.error x, Except.error y =>
      if h : x = y then isTrue (by rw [h]) else isFalse (by simp [h])
  | Except.ok _, Except.error _ => isFalse (by simp)
  | Except.error _, Except.ok _ => isFalse (by simp)

/-- The shape-classification `match (element_blob, sparse_merkle_proof.leaf())`
block of `verify_sparse_merkle_element` (`src/proof/mod.rs`), extracted as a
function.  Each arm performs the source's `ensure!` checks in order. -/
def leafShapeCheck (M : HasherModel) (elementKey : List Bool)
    (elementBlob : Option (List Nat)) (leaf : Option (List Bool × List Bool))
    (numSiblings : Nat) : Except VerifyError Unit :=
  match elementBlob, leaf with
  | some blob, some kv =>
      if elementKey ≠ kv.1 then Except.error VerifyError.keyMismatch
      else if M.blobHash blob ≠ kv.2 then Except.error VerifyError.valueMismatch
      else Except.ok ()
  | some _, none => Except.error VerifyError.expectedInclusionFoundNonInclusion
  | none, some kv =>
      if elementKey = kv.1 then Except.error VerifyError.nonInclusionKeyExists
      else if commonPrefixBitsLen elementKey kv.1 < numSiblings then
        Except.error VerifyError.invalidNonInclusionProof
      else Except.ok ()
  | none, none => Except.ok ()

/-- The bit sequence `element_key.iter_bits().rev().skip(LENGTH_IN_BITS - siblings.len())`
zipped against the reversed sibling list in `verify_sparse_merkle_element`:
the key's bits, least significant first, with the first `L - n` of that reversed
stream skipped. -/
def consumedBits (M : HasherModel) (elementKey : List Bool) (numSiblings : Nat) :
    List Bool :=
  elementKey.reverse.drop (M.lengthInBits - numSiblings)

/-- `verify_sparse_merkle_element` from `src/proof/mod.rs`.  The leading
`ensure!(siblings.len() <= HashValue::LENGTH_IN_BITS)` is the depth check; the
shape classification is `leafShapeCheck`; then the root is reconstructed by
folding the reversed sibling list zipped with the key bits, starting from the
leaf hash (leaf present) or the placeholder (leaf absent), and compared with
`expected_root_hash`. -/
def verifySparseMerkleElement (M : HasherModel) (expectedRootHash : List Bool)
    (elementKey : List Bool) (elementBlob : Option (List Nat))
    (proof : SparseMerkleProof) : Except VerifyError Unit :=
  let siblings := proof.siblings
  if siblings.length ≤ M.lengthInBits then
    match leafShapeCheck M elementKey elementBlob proof.leaf siblings.length with
    | Except.error e => Except.error e
    | Except.ok _ =>
      let currentHash :=
        match proof.leaf with
        | some kv => M.leafHash kv.1 kv.2
        | none => M.placeholder
      let actualRootHash :=
        (siblings.reverse.zip (consumedBits M elementKey siblings.length)).foldl
          (fun hash sb =>
            if sb.2 then M.internalHash sb.1 hash else M.internalHash hash sb.1)
          currentHash
      if actualRootHash = expectedRootHash then Except.ok ()
      else Except.error VerifyError.rootMismatch
  else Except.error VerifyError.tooManySiblings

/-- The starting hash of the root reconstruction, as the spec words it: the leaf
hash of the proof's leaf when present, the placeholder hash when absent. -/
def startingHash (M : HasherModel) (leaf : Option (List Bool × List Bool)) :
    List Bool :=
  match leaf with
  | some kv => M.leafHash kv.1 kv.2
  | none => M.placeholder

/-- One step of the root-reconstruction fold: when the consumed key bit is `true`
the current hash is the right child, otherwise the left child. -/
def foldStep (M : HasherModel) (hash : List Bool) (sb : List Bool × Bool) :
    List Bool :=
  if sb.2 then M.internalHash sb.1 hash else M.internalHash hash sb.1

/-- The root hash reconstructed by `verify_sparse_merkle_element`: fold over the
siblings from the leaf-most (last stored) entry toward the root-most (first
stored) entry, zipped with the consumed key bits, starting from `startingHash`. -/
def reconstructedRoot (M : HasherModel) (elementKey : List Bool)
    (proof : SparseMerkleProof) : List Bool :=
  (proof.siblings.reverse.zip
      (consumedBits M elementKey proof.siblings.length)).foldl
    (foldStep M) (startingHash M proof.leaf)

/-- Bit schedule asserted by the specification for the root-reconstruction fold:
the key's bits at positions `L - n` through `L - 1` in MSB-first indexing,
processed leaf-most first, i.e. the bit at position `L - 1 - i` at step `i`. -/
def specConsumedBits (M : HasherModel) (elementKey : List Bool)
    (numSiblings : Nat) : List Bool :=
  (elementKey.drop (M.lengthInBits - numSiblings)).reverse

/-- A small concrete instantiation of the external hasher interface, used to
evaluate the verifier on explicit inputs: four-bit hash values, the all-false
placeholder, concatenation as the internal-node hasher, a tagged concatenation
as the leaf hasher, and bytewise parity as the blob hasher. -/
def testModel : HasherModel :=
  ⟨4, [false, false, false, false],
    fun l r => l ++ r,
    fun k v => true :: (k ++ v),
    fun bytes => bytes.map (fun b => decide (b % 2 = 1))⟩

/-! ### Helper lemmas about the verifier -/

theorem verify_depth_exceeded (M : HasherModel) (root key : List Bool)
    (blob : Option (List Nat)) (proof : SparseMerkleProof)
    (h : M.lengthInBits < proof.siblings.length) :
    verifySparseMerkleElement M root key blob proof =
      Except.error VerifyError.tooManySiblings := by
  simp only [verifySparseMerkleElement]
  rw [if_neg (by omega)]

theorem verify_shape_error (M : HasherModel) (root key : List Bool)
    (blob : Option (List Nat)) (proof : SparseMerkleProof) (e : VerifyError)
    (hdepth : proof.siblings.length ≤ M.lengthInBits)
    (hshape : leafShapeCheck M key blob proof.leaf proof.siblings.length =
      Except.error e) :
    verifySparseMerkleElement M root key blob proof = Except.error e := by
  simp only [verifySparseMerkleElement]
  rw [if_pos hdepth, hshape]

theorem verify_checks_pass (M : HasherModel) (root key : List Bool)
    (blob : Option (List Nat)) (proof : SparseMerkleProof)
    (hdepth : proof.siblings.length ≤ M.lengthInBits)
    (hshape : leafShapeCheck M key blob proof.leaf proof.siblings.length =
      Except.ok ()) :
    verifySparseMerkleElement M root key blob proof =
      if reconstructedRoot M key proof = root then Except.ok ()
      else Except.error VerifyError.rootMismatch := by
  simp only [verifySparseMerkleElement]
  rw [if_pos hdepth, hshape]
  rfl

/-! ### C1: starting hash, fold direction and root comparison -/

/-- C1.  For every call to `verify_sparse_merkle_element` that passes the depth
check and the leaf-level shape checks, the result is obtained by starting from
the leaf hash of the proof's leaf (placeholder hash when the leaf is absent),
folding the siblings from the leaf-most (last) entry toward the root-most
(first) entry — at each step hashing `internal_hash(sibling, current)` when the
consumed key bit is 1 and `internal_hash(current, sibling)` when it is 0 — and
the call succeeds exactly when the folded result equals `expected_root_hash`,
failing with `RootMismatch` otherwise.  `reconstructedRoot` is that fold,
starting from `startingHash`. -/
theorem c1_root_reconstruction (M : HasherModel) (root key : List Bool)
    (blob : Option (List Nat)) (proof : SparseMerkleProof)
    (hdepth : proof.siblings.length ≤ M.lengthInBits)
    (hshape : leafShapeCheck M key blob proof.leaf proof.siblings.length =
      Except.ok ()) :
    verifySparseMerkleElement M root key blob proof =
      if reconstructedRoot M key proof = root then Except.ok ()
      else Except.error VerifyError.rootMismatch :=
  verify_checks_pass M root key blob proof hdepth hshape

theorem c1_root_reconstruction_witness :
    (⟨none, []⟩ : SparseMerkleProof).siblings.length ≤ testModel.lengthInBits ∧
    leafShapeCheck testModel [true, false, true, false] none none 0 = Except.ok () ∧
    verifySparseMerkleElement testModel [false, false, false, false]
        [true, false, true, false] none ⟨none, []⟩ =
      if reconstructedRoot testModel [true, false, true, false] ⟨none, []⟩ =
          [false, false, false, false] then Except.ok ()
      else Except.error VerifyError.rootMismatch :=
  ⟨by decide, by decide,
    c1_root_reconstruction testModel [false, false, false, false]
      [true, false, true, false] none ⟨none, []⟩ (by decide) (by decide)⟩

/-! ### C5: the depth check precedes everything -/

/-- C5.  A proof whose sibling list has more than `LENGTH_IN_BITS` entries makes
`verify_sparse_merkle_element` fail with `TooManySiblings` regardless of every
other argument and of the proof's leaf and sibling contents. -/
theorem c5_too_many_siblings (M : HasherModel) (root key : List Bool)
    (blob : Option (List Nat)) (proof : SparseMerkleProof)
    (h : M.lengthInBits < proof.siblings.length) :
    verifySparseMerkleElement M root key blob proof =
      Except.error VerifyError.tooManySiblings :=
  verify_depth_exceeded M root key blob proof h

theorem c5_too_many_siblings_witness :
    testModel.lengthInBits <
      (⟨none, List.replicate 5 [true, false, false, false]⟩ :
        SparseMerkleProof).siblings.length ∧
    verifySparseMerkleElement testModel [true, true, true, true]
        [false, false, true, true] (some [2])
        ⟨none, List.replicate 5 [true, false, false, false]⟩ =
      Except.error VerifyError.tooManySiblings :=
  ⟨by decide,
    c5_too_many_siblings testModel [true, true, true, true]
      [false, false, true, true] (some [2])
      ⟨none, List.replicate 5 [true, false, false, false]⟩ (by decide)⟩

/-! ### C3: non-inclusion shape checks -/

/-- C3 counterexample.  The claim says every call with `element_blob` absent and
`proof.leaf` present fails with `NonInclusionKeyExists` when the element key
equals the proof key; but the depth check runs first, so a proof with more than
`LENGTH_IN_BITS` siblings fails with `TooManySiblings` even in that
configuration. -/
theorem c3_noninclusion_counterexample :
    verifySparseMerkleElement testModel [false, false, false, false]
        [true, true, true, true] none
        ⟨some ([true, true, true, true], [false, false, false, true]),
          List.replicate 5 [true, false, false, false]⟩ =
      Except.error VerifyError.tooManySiblings ∧
    verifySparseMerkleElement testModel [false, false, false, false]
        [true, true, true, true] none
        ⟨some ([true, true, true, true], [false, false, false, true]),
          List.replicate 5 [true, false, false, false]⟩ ≠
      Except.error VerifyError.nonInclusionKeyExists :=
  ⟨by decide, by decide⟩

/-- C3 (amended with the depth-check precondition).  For every call with
`element_blob` absent and `proof.leaf` present as `(proofKey, proofValueHash)`,
provided the proof passes the depth check: the call fails with
`NonInclusionKeyExists` when the element key equals the proof key, fails with
`InvalidNonInclusionProof` when the common-prefix bit length of the two keys is
strictly less than the number of siblings, and otherwise proceeds to root
reconstruction. -/
theorem c3_noninclusion_checks (M : HasherModel)
    (root key proofKey proofValueHash : List Bool)
    (siblings : List (List Bool)) (hdepth : siblings.length ≤ M.lengthInBits) :
    (key = proofKey →
      verifySparseMerkleElement M root key none
          ⟨some (proofKey, proofValueHash), siblings⟩ =
        Except.error VerifyError.nonInclusionKeyExists) ∧
    (key ≠ proofKey → commonPrefixBitsLen key proofKey < siblings.length →
      verifySparseMerkleElement M root key none
          ⟨some (proofKey, proofValueHash), siblings⟩ =
        Except.error VerifyError.invalidNonInclusionProof) ∧
    (key ≠ proofKey → siblings.length ≤ commonPrefixBitsLen key proofKey →
      verifySparseMerkleElement M root key none
          ⟨some (proofKey, proofValueHash), siblings⟩ =
        if reconstructedRoot M key ⟨some (proofKey, proofValueHash), siblings⟩ =
            root then Except.ok ()
        else Except.error VerifyError.rootMismatch) := by
  refine ⟨fun hk => verify_shape_error M root key none _ _ hdepth ?_,
          fun hk hc => verify_shape_error M root key none _ _ hdepth ?_,
          fun hk hc => verify_checks_pass M root key none _ hdepth ?_⟩
  · simp [leafShapeCheck, hk]
  · simp [leafShapeCheck, hk, hc]
  · simp [leafShapeCheck, hk, Nat.not_lt.mpr hc]

theorem c3_noninclusion_checks_witness :
    ([[true, false, false, false]] : List (List Bool)).length ≤
      testModel.lengthInBits ∧
    verifySparseMerkleElement testModel [false, false, false, false]
        [true, true, true, true] none
        ⟨some ([true, true, true, true], [false, false, false, true]),
          [[true, false, false, false]]⟩ =
      Except.error VerifyError.nonInclusionKeyExists :=
  ⟨by decide,
    (c3_noninclusion_checks testModel [false, false, false, false]
      [true, true, true, true] [true, true, true, true]
      [false, false, false, true] [[true, false, false, false]]
      (by decide)).1 rfl⟩

/-! ### C4: inclusion shape checks -/

/-- C4 counterexample.  The claim says every call with `element_blob` present and
`proof.leaf` absent fails with `ExpectedInclusionFoundNonInclusion`; but the
depth check runs first, so a proof with more than `LENGTH_IN_BITS` siblings
fails with `TooManySiblings` even in that configuration. -/
theorem c4_inclusion_counterexample :
    verifySparseMerkleElement testModel [false, false, false, false]
        [true, true, true, true] (some [1])
        ⟨none, List.replicate 5 [true, false, false, false]⟩ =
      Except.error VerifyError.tooManySiblings ∧
    verifySparseMerkleElement testModel [false, false, false, false]
        [true, true, true, true] (some [1])
        ⟨none, List.replicate 5 [true, false, false, false]⟩ ≠
      Except.error VerifyError.expectedInclusionFoundNonInclusion :=
  ⟨by decide, by decide⟩

/-- C4 (amended with the depth-check precondition).  For every call with
`element_blob` present, provided the proof passes the depth check: if the
proof's leaf is absent the call fails with `ExpectedInclusionFoundNonInclusion`;
if the leaf is present the call fails with `KeyMismatch` when the element key
differs from the proof key, fails with `ValueMismatch` when the key matches but
the blob's hash differs from the proof value hash, and otherwise proceeds to
root reconstruction. -/
theorem c4_inclusion_checks (M : HasherModel) (root key : List Bool)
    (blob : List Nat) (siblings : List (List Bool))
    (hdepth : siblings.length ≤ M.lengthInBits) :
    (verifySparseMerkleElement M root key (some blob) ⟨none, siblings⟩ =
      Except.error VerifyError.expectedInclusionFoundNonInclusion) ∧
    ∀ proofKey proofValueHash : List Bool,
      (key ≠ proofKey →
        verifySparseMerkleElement M root key (some blob)
            ⟨some (proofKey, proofValueHash), siblings⟩ =
          Except.error VerifyError.keyMismatch) ∧
      (key = proofKey → M.blobHash blob ≠ proofValueHash →
        verifySparseMerkleElement M root key (some blob)
            ⟨some (proofKey, proofValueHash), siblings⟩ =
          Except.error VerifyError.valueMismatch) ∧
      (key = proofKey → M.blobHash blob = proofValueHash →
        verifySparseMerkleElement M root key (some blob)
            ⟨some (proofKey, proofValueHash), siblings⟩ =
          if reconstructedRoot M key
              ⟨some (proofKey, proofValueHash), siblings⟩ = root then
            Except.ok ()
          else Except.error VerifyError.rootMismatch) := by
  refine ⟨verify_shape_error M root key (some blob) _ _ hdepth (by simp [leafShapeCheck]),
          fun proofKey proofValueHash =>
            ⟨fun hk => verify_shape_error M root key (some blob) _ _ hdepth ?_,
             fun hk hv => verify_shape_error M root key (some blob) _ _ hdepth ?_,
             fun hk hv => verify_checks_pass M root key (some blob) _ hdepth ?_⟩⟩
  · simp [leafShapeCheck, hk]
  · simp [leafShapeCheck, hk, hv]
  · simp [leafShapeCheck, hk, hv]

theorem c4_inclusion_checks_witness :
    ([] : List (List Bool)).length ≤ testModel.lengthInBits ∧
    verifySparseMerkleElement testModel [false, false, false, false]
        [true, true, true, true] (some [1]) ⟨none, []⟩ =
      Except.error VerifyError.expectedInclusionFoundNonInclusion :=
  ⟨by decide,
    (c4_inclusion_checks testModel [false, false, false, false]
      [true, true, true, true] [1] [] (by decide)).1⟩

/-! ### C8: the constructor's assertion -/

/-- C8.  `SparseMerkleProof::new` halts with an assertion failure (modelled as
`none`) exactly when the sibling list is non-empty and its last element equals
the placeholder hash — `getLast? = some placeholder` — and otherwise returns a
proof whose `leaf()` and `siblings()` accessors return exactly the arguments
passed in. -/
theorem c8_constructor_assertion (M : HasherModel)
    (leaf : Option (List Bool × List Bool)) (siblings : List (List Bool)) :
    SparseMerkleProof.new M leaf siblings =
      if siblings.getLast? = some M.placeholder then none
      else some ⟨leaf, siblings⟩ := by
  unfold SparseMerkleProof.new
  cases h : siblings.getLast? with
  | none => simp [h]
  | some lastSibling =>
      by_cases hp : lastSibling = M.placeholder <;> simp [h, hp]

/-! ### C9: the depth bound is not established at construction -/

/-- C9 counterexample.  `SparseMerkleProof::new` accepts a sibling list of
length 5 although `LENGTH_IN_BITS = 4` in this model: the depth bound is not an
invariant established by the constructor. -/
theorem c9_depth_invariant_counterexample :
    SparseMerkleProof.new testModel none
        (List.replicate 5 [true, false, false, false]) =
      some ⟨none, List.replicate 5 [true, false, false, false]⟩ ∧
    ¬ ((⟨none, List.replicate 5 [true, false, false, false]⟩ :
          SparseMerkleProof).siblings.length ≤ testModel.lengthInBits) :=
  ⟨by decide, by decide⟩

/-- C9 (amended).  The constructor does not enforce the depth bound
`siblings.len() ≤ LENGTH_IN_BITS`; instead, every constructor-accepted proof
whose sibling list exceeds the bound is rejected by the verifier with
`TooManySiblings`. -/
theorem c9_depth_checked_at_verify (M : HasherModel)
    (leaf : Option (List Bool × List Bool)) (siblings : List (List Bool))
    (p : SparseMerkleProof) (root key : List Bool) (blob : Option (List Nat))
    (hnew : SparseMerkleProof.new M leaf siblings = some p)
    (hlen : M.lengthInBits < p.siblings.length) :
    verifySparseMerkleElement M root key blob p =
      Except.error VerifyError.tooManySiblings :=
  verify_depth_exceeded M root key blob p hlen

theorem c9_depth_checked_at_verify_witness :
    SparseMerkleProof.new testModel none
        (List.replicate 5 [true, false, false, false]) =
      some ⟨none, List.replicate 5 [true, false, false, false]⟩ ∧
    verifySparseMerkleElement testModel [false, false, false, false]
        [true, true, true, true] none
        ⟨none, List.replicate 5 [true, false, false, false]⟩ =
      Except.error VerifyError.tooManySiblings :=
  ⟨by decide,
    c9_depth_checked_at_verify testModel none
      (List.replicate 5 [true, false, false, false])
      ⟨none, List.replicate 5 [true, false, false, false]⟩
      [false, false, false, false] [true, true, true, true] none
      (by decide) (by decide)⟩

/-! ### C10: the verifier sees the blob only through its hash -/

/-- C10.  `verify_sparse_merkle_element` depends on the account blob only
through its hash: two blobs with equal hashes yield identical verification
outcomes for every root, key and proof. -/
theorem c10_blob_hash_only (M : HasherModel) (root key : List Bool)
    (b1 b2 : List Nat) (proof : SparseMerkleProof)
    (h : M.blobHash b1 = M.blobHash b2) :
    verifySparseMerkleElement M root key (some b1) proof =
      verifySparseMerkleElement M root key (some b2) proof := by
  have hs : leafShapeCheck M key (some b1) proof.leaf proof.siblings.length =
      leafShapeCheck M key (some b2) proof.leaf proof.siblings.length := by
    unfold leafShapeCheck
    cases proof.leaf with
    | none => rfl
    | some kv => simp only [h]
  simp only [verifySparseMerkleElement]
  rw [hs]

theorem c10_blob_hash_only_witness :
    testModel.blobHash [1] = testModel.blobHash [3] ∧
    verifySparseMerkleElement testModel [false, false, false, false]
        [true, true, true, true] (some [1]) ⟨none, []⟩ =
      verifySparseMerkleElement testModel [false, false, false, false]
        [true, true, true, true] (some [3]) ⟨none, []⟩ :=
  ⟨by decide,
    c10_blob_hash_only testModel [false, false, false, false]
      [true, true, true, true] [1] [3] ⟨none, []⟩ (by decide)⟩

/-! ### C2: which key bits the fold consumes -/

/-- C2 counterexample.  With `L = 4` and two siblings, the fold consumes the key
bits `[true, true]` — the key's bits at MSB-first positions 1 and 0 — whereas
the claim's schedule (positions `L - n` through `L - 1`, leaf-most first) would
be `[false, false]`; verifying against the root reconstructed with the claim's
schedule (internal hashing is concatenation in `testModel`, so the two folds
are distinguishable) fails with `RootMismatch`. -/
theorem c2_bit_schedule_counterexample :
    consumedBits testModel [true, true, false, false] 2 ≠
      specConsumedBits testModel [true, true, false, false] 2 ∧
    verifySparseMerkleElement testModel
        [false, false, false, false, true, false, false, false, false, true,
          false, false]
        [true, true, false, false] none
        ⟨none, [[false, true, false, false], [true, false, false, false]]⟩ =
      Except.error VerifyError.rootMismatch :=
  ⟨by decide, by decide⟩

/-- C2 (amended).  The key bits consumed by the root-reconstruction fold are the
key's bits at positions 0 through `n - 1` in MSB-first indexing (`n` the number
of siblings), the leaf-most sibling at step `i` consuming the bit at position
`n - 1 - i`: the consumed stream is `(key.take n).reverse`. -/
theorem c2_bit_schedule_amended (M : HasherModel) (elementKey : List Bool)
    (n : Nat) (hkey : elementKey.length = M.lengthInBits)
    (hn : n ≤ M.lengthInBits) :
    consumedBits M elementKey n = (elementKey.take n).reverse ∧
    ∀ i, i < n → (consumedBits M elementKey n).getD i false =
      elementKey.getD (n - 1 - i) false := by
  have h1 : consumedBits M elementKey n = (elementKey.take n).reverse := by
    unfold consumedBits
    rw [List.drop_reverse]
    congr 2
    omega
  refine ⟨h1, fun i hi => ?_⟩
  rw [h1]
  have hlen : (elementKey.take n).length = n := by
    rw [List.length_take]
    omega
  rw [List.getD_eq_getElem?_getD, List.getD_eq_getElem?_getD,
    List.getElem?_reverse (by omega)]
  rw [hlen, List.getElem?_take_of_lt (by omega)]

theorem c2_bit_schedule_amended_witness :
    ([true, true, false, false] : List Bool).length = testModel.lengthInBits ∧
    2 ≤ testModel.lengthInBits ∧
    consumedBits testModel [true, true, false, false] 2 =
      (([true, true, false, false] : List Bool).take 2).reverse :=
  ⟨by decide, by decide,
    (c2_bit_schedule_amended testModel [true, true, false, false] 2
      (by decide) (by decide)).1⟩

/-! ### The bitmap codec (`mod bitmap` in `src/proof/definition.rs`)

A `SparseMerkleBitmap` wraps a `Vec<u8>`; bytes are modelled as `Nat` values
(below 256 for every byte the encoder produces).  `SparseMerkleBitmap::new` is
the identity wrapper, so the codec is stated directly on the byte list. -/

/-- Applies `f` to the last element of a list, as Rust's `last_mut`; on the
empty list (the `expect` in the source, unreachable there) it is the
identity. -/
def updateLast (f : Nat → Nat) : List Nat → List Nat
  | [] => []
  | [a] => [f a]
  | a :: b :: rest => a :: updateLast f (b :: rest)

/-- One iteration of the enumerate loop of
`FromIterator<bool> for SparseMerkleBitmap`: on a byte boundary push a fresh
zero byte, then OR the bit into the last byte at position `7 - i % 8` from the
most significant end. -/
def bitmapPush (bitmap : List Nat) (i : Nat) (bit : Bool) : List Nat :=
  let pos := i % 8
  let bitmap := if pos = 0 then bitmap ++ [0] else bitmap
  updateLast (fun lastByte => lastByte ||| ((if bit then 1 else 0) <<< (7 - pos))) bitmap

/-- The encoder loop as a recursion over the remaining bits, carrying the
enumeration index and the bytes built so far. -/
def fromIterGo : List Bool → Nat → List Nat → List Nat
  | [], _, bitmap => bitmap
  | bit :: rest, i, bitmap => fromIterGo rest (i + 1) (bitmapPush bitmap i bit)

/-- `FromIterator<bool> for SparseMerkleBitmap` from `src/proof/definition.rs`:
packs the boolean sequence into bytes, 8 bits per byte, MSB first. -/
def smbFromIterator (bits : List Bool) : List Nat :=
  fromIterGo bits 0 []

/-- `u8::trailing_zeros` for a byte: the position of the least significant set
bit among bits 0 through 7, or 8 when none is set. -/
def trailingZeros8 (v : Nat) : Nat :=
  if v.testBit 0 then 0
  else if v.testBit 1 then 1
  else if v.testBit 2 then 2
  else if v.testBit 3 then 3
  else if v.testBit 4 then 4
  else if v.testBit 5 then 5
  else if v.testBit 6 then 6
  else if v.testBit 7 then 7
  else 8

/-- `SparseMerkleBitmapIterator` from `src/proof/definition.rs`, collected into
a list.  The constructor asserts (`assert_ne!`, modelled as `none`) that the
last byte is non-zero; the bit count is `8 * byte_count` minus the trailing
zeros of the last byte, and bit `index` is read as
`bitmap[index / 8] >> (7 - index % 8) & 1 != 0`. -/
def smbDecode (bitmap : List Nat) : Option (List Bool) :=
  match bitmap.getLast? with
  | none => some []
  | some lastByte =>
      if lastByte = 0 then none
      else
        some ((List.range (bitmap.length * 8 - trailingZeros8 lastByte)).map
          fun index => ((bitmap.getD (index / 8) 0) >>> (7 - index % 8)) &&& 1 != 0)

/-- A boolean sequence with its maximal trailing run of `false` removed — the
spec's description of what decoding an encoded sequence returns. -/
def dropTrailingFalses (bits : List Bool) : List Bool :=
  (bits.reverse.dropWhile (fun b => !b)).reverse

/-- The value a single bit contributes to its byte: bit `pos` of a byte counts
`2 ^ (7 - pos)`, MSB first. -/
def byteBit (pos : Nat) (bit : Bool) : Nat :=
  (if bit then 1 else 0) <<< (7 - pos)

/-- The byte obtained by packing the group `g` of at most `8 - pos` bits
starting at in-byte position `pos`. -/
def packByte (pos : Nat) : List Bool → Nat
  | [] => 0
  | b :: rest => byteBit pos b ||| packByte (pos + 1) rest

/-- Structural form of the encoder: split the bit sequence into groups of 8 and
pack each group MSB-first.  `fromIterGo_spec` proves the loop computes this. -/
def packBytes : List Bool → List Nat
  | [] => []
  | b :: rest => packByte 0 (b :: rest.take 7) :: packBytes (rest.drop 7)
termination_by bits => bits.length
decreasing_by
  simp only [List.length_cons, List.length_drop]
  omega

/-! ### The encoder loop computes `packBytes` -/

theorem updateLast_append (f : Nat → Nat) (xs : List Nat) (a : Nat) :
    updateLast f (xs ++ [a]) = xs ++ [f a] := by
  induction xs with
  | nil => rfl
  | cons x rest ih =>
      cases rest with
      | nil => rfl
      | cons y t =>
          simp only [List.cons_append] at ih ⊢
          rw [updateLast, ih]

theorem fromIterGo_spec (N : Nat) : ∀ bits : List Bool, bits.length ≤ N →
    (∀ i bm, i % 8 = 0 → fromIterGo bits i bm = bm ++ packBytes bits) ∧
    (∀ i bm v, i % 8 ≠ 0 →
      fromIterGo bits i (bm ++ [v]) =
        bm ++ ((v ||| packByte (i % 8) (bits.take (8 - i % 8))) ::
          packBytes (bits.drop (8 - i % 8)))) := by
  induction N with
  | zero =>
      intro bits hlen
      have hnil : bits = [] := List.eq_nil_of_length_eq_zero (by omega)
      subst hnil
      refine ⟨fun i bm hi => by simp [fromIterGo, packBytes],
              fun i bm v hi => ?_⟩
      simp [fromIterGo, packBytes, packByte]
  | succ N ih =>
      intro bits hlen
      cases bits with
      | nil =>
          refine ⟨fun i bm hi => by simp [fromIterGo, packBytes],
                  fun i bm v hi => ?_⟩
          simp [fromIterGo, packBytes, packByte]
      | cons b rest =>
          have hrest : rest.length ≤ N := by
            simp only [List.length_cons] at hlen
            omega
          constructor
          · intro i bm hi
            show fromIterGo rest (i + 1) (bitmapPush bm i b) = bm ++ packBytes (b :: rest)
            have hpush : bitmapPush bm i b = bm ++ [0 ||| byteBit 0 b] := by
              simp [bitmapPush, hi, updateLast_append, byteBit]
            have hi1 : (i + 1) % 8 = 1 := by omega
            rw [hpush]
            have hinner := (ih rest hrest).2 (i + 1) bm (0 ||| byteBit 0 b) (by omega)
            rw [hi1] at hinner
            rw [hinner]
            show bm ++ ((0 ||| byteBit 0 b ||| packByte 1 (rest.take 7)) ::
              packBytes (rest.drop 7)) = bm ++ packBytes (b :: rest)
            rw [packBytes]
            rw [show packByte 0 (b :: rest.take 7) = byteBit 0 b ||| packByte 1 (rest.take 7) from rfl]
            simp [Nat.zero_or]
          · intro i bm v hi
            have hp7 : i % 8 ≤ 7 := by omega
            show fromIterGo rest (i + 1) (bitmapPush (bm ++ [v]) i b) = _
            have hpush : bitmapPush (bm ++ [v]) i b =
                bm ++ [v ||| byteBit (i % 8) b] := by
              simp [bitmapPush, hi, updateLast_append, byteBit]
            rw [hpush]
            by_cases h7 : i % 8 = 7
            · have hi0 : (i + 1) % 8 = 0 := by omega
              have houter := (ih rest hrest).1 (i + 1) (bm ++ [v ||| byteBit 7 b]) hi0
              rw [h7, houter]
              show bm ++ [v ||| byteBit 7 b] ++ packBytes rest =
                bm ++ ((v ||| packByte 7 ((b :: rest).take 1)) :: packBytes ((b :: rest).drop 1))
              have htk : (b :: rest).take 1 = [b] := by simp
              have hdr : (b :: rest).drop 1 = rest := by simp
              rw [htk, hdr]
              rw [show packByte 7 [b] = byteBit 7 b ||| packByte 8 [] from rfl]
              simp [packByte, Nat.or_zero, List.append_assoc]
            · have hi1 : (i + 1) % 8 = i % 8 + 1 := by omega
              have hne : (i + 1) % 8 ≠ 0 := by omega
              have hinner := (ih rest hrest).2 (i + 1) bm (v ||| byteBit (i % 8) b) hne
              rw [hi1] at hinner
              rw [hinner]
              have htk : (b :: rest).take (8 - i % 8) = b :: rest.take (7 - i % 8) := by
                rw [show 8 - i % 8 = (7 - i % 8) + 1 from by omega]
                rfl
              have hdr : (b :: rest).drop (8 - i % 8) = rest.drop (7 - i % 8) := by
                rw [show 8 - i % 8 = (7 - i % 8) + 1 from by omega]
                rfl
              rw [htk, hdr]
              rw [show packByte (i % 8) (b :: rest.take (7 - i % 8)) =
                byteBit (i % 8) b ||| packByte (i % 8 + 1) (rest.take (7 - i % 8)) from rfl]
              rw [show 8 - (i % 8 + 1) = 7 - i % 8 from by omega]
              rw [Nat.or_assoc]

/-- The Rust encoder equals the structural packer. -/
theorem smbFromIterator_eq_packBytes (bits : List Bool) :
    smbFromIterator bits = packBytes bits := by
  have h := (fromIterGo_spec bits.length bits (Nat.le_refl _)).1 0 [] rfl
  simpa [smbFromIterator] using h

/-! ### Byte-level facts about `packBytes` -/

theorem length_packBytes (bits : List Bool) :
    (packBytes bits).length = (bits.length + 7) / 8 := by
  induction bits using packBytes.induct with
  | case1 => simp [packBytes]
  | case2 b rest ih =>
      rw [packBytes]
      simp only [List.length_cons, List.length_drop] at ih ⊢
      omega

theorem packBytes_getD (j : Nat) : ∀ bits : List Bool,
    (packBytes bits).getD j 0 = packByte 0 ((bits.drop (8 * j)).take 8) := by
  induction j with
  | zero =>
      intro bits
      cases bits with
      | nil => simp [packBytes, packByte]
      | cons b rest =>
          rw [packBytes]
          simp [List.getD, packByte]
  | succ j ih =>
      intro bits
      cases bits with
      | nil => simp [packBytes, packByte, List.getD]
      | cons b rest =>
          rw [packBytes]
          show (packBytes (rest.drop 7)).getD j 0 = _
          rw [ih (rest.drop 7)]
          rw [List.drop_drop]
          rw [show 8 * (j + 1) = 7 + 8 * j + 1 from by omega]
          rfl

theorem byteBit_testBit (pos : Nat) (b : Bool) (t : Nat) (h : pos ≤ 7) :
    (byteBit pos b).testBit t = (b && decide (t = 7 - pos)) := by
  cases b with
  | false => simp [byteBit]
  | true =>
      simp only [byteBit, if_pos]
      rw [Nat.one_shiftLeft, Nat.testBit_two_pow]
      simp [eq_comm]

theorem packByte_testBit (g : List Bool) : ∀ pos t : Nat, pos + g.length ≤ 8 →
    ((packByte pos g).testBit t = true ↔
      ∃ j, j < g.length ∧ g.getD j false = true ∧ t = 7 - (pos + j)) := by
  induction g with
  | nil =>
      intro pos t hlen
      simp [packByte]
  | cons b rest ih =>
      intro pos t hlen
      simp only [List.length_cons] at hlen
      rw [packByte, Nat.testBit_or, byteBit_testBit pos b t (by omega)]
      have hrest := ih (pos + 1) t (by omega)
      constructor
      · intro h
        rcases Bool.or_eq_true_iff.mp h with h1 | h2
        · have hb : b = true := (Bool.and_eq_true_iff.mp h1).1
          have ht : t = 7 - pos := of_decide_eq_true (Bool.and_eq_true_iff.mp h1).2
          exact ⟨0, by simp, by simpa using hb, by omega⟩
        · obtain ⟨j, hj, hg, ht⟩ := hrest.mp h2
          refine ⟨j + 1, ?_, ?_, ?_⟩
          · simp only [List.length_cons]
            omega
          · simpa using hg
          · omega
      · rintro ⟨j, hj, hg, ht⟩
        apply Bool.or_eq_true_iff.mpr
        cases j with
        | zero =>
            left
            have hb : b = true := by simpa using hg
            subst hb
            simp only [Bool.true_and]
            exact decide_eq_true (by omega)
        | succ j =>
            right
            apply hrest.mpr
            refine ⟨j, ?_, ?_, ?_⟩
            · simp only [List.length_cons] at hj
              omega
            · simpa using hg
            · omega

theorem take_drop_getD (bits : List Bool) (q j : Nat) (hj : j < 8) :
    ((bits.drop (8 * q)).take 8).getD j false = bits.getD (8 * q + j) false := by
  rw [List.getD_eq_getElem?_getD, List.getD_eq_getElem?_getD,
    List.getElem?_take_of_lt hj, List.getElem?_drop]

/-- Bit `idx` of the encoded byte sequence — read MSB-first from byte `idx / 8`
as the decoder does — is bit `idx` of the input (or `false` beyond its end). -/
theorem encoder_testBit (bits : List Bool) (idx : Nat) :
    ((packBytes bits).getD (idx / 8) 0).testBit (7 - idx % 8) =
      bits.getD idx false := by
  rw [packBytes_getD]
  have hlen8 : ((bits.drop (8 * (idx / 8))).take 8).length ≤ 8 := by
    simp [List.length_take]
  have hiff := packByte_testBit ((bits.drop (8 * (idx / 8))).take 8) 0
    (7 - idx % 8) (by omega)
  have hmod : idx % 8 < 8 := Nat.mod_lt _ (by omega)
  cases hb : bits.getD idx false with
  | true =>
      have hidx : idx < bits.length := by
        by_contra hc
        rw [List.getD_eq_getElem?_getD, List.getElem?_eq_none (by omega)] at hb
        simp at hb
      apply hiff.mpr
      refine ⟨idx % 8, ?_, ?_, by omega⟩
      · rw [List.length_take, List.length_drop]
        omega
      · rw [take_drop_getD bits (idx / 8) (idx % 8) hmod,
          show 8 * (idx / 8) + idx % 8 = idx from by omega]
        exact hb
  | false =>
      cases hres : ((packByte 0 ((bits.drop (8 * (idx / 8))).take 8)).testBit
          (7 - idx % 8)) with
      | false => rfl
      | true =>
          obtain ⟨j, hj, hgj, htj⟩ := hiff.mp hres
          have hj8 : j < 8 := by omega
          have hjeq : j = idx % 8 := by omega
          subst hjeq
          rw [take_drop_getD bits (idx / 8) (idx % 8) hmod,
            show 8 * (idx / 8) + idx % 8 = idx from by omega, hb] at hgj
          exact absurd hgj (by simp)

/-! ### Trailing-false runs -/

theorem dtf_decomposition (bits : List Bool) :
    bits = dropTrailingFalses bits ++
      List.replicate (bits.reverse.takeWhile (fun b => !b)).length false := by
  have h1 : bits.reverse.takeWhile (fun b => !b) ++
      bits.reverse.dropWhile (fun b => !b) = bits.reverse :=
    List.takeWhile_append_dropWhile (fun b => !b) bits.reverse
  have h2 : bits = (bits.reverse.dropWhile (fun b => !b)).reverse ++
      (bits.reverse.takeWhile (fun b => !b)).reverse := by
    rw [← List.reverse_append, h1, List.reverse_reverse]
  have h3 : (bits.reverse.takeWhile (fun b => !b)).reverse =
      List.replicate (bits.reverse.takeWhile (fun b => !b)).length false := by
    have hall : ∀ x ∈ (bits.reverse.takeWhile (fun b => !b)).reverse, x = false := by
      intro x hx
      have hx2 : x ∈ bits.reverse.takeWhile (fun b => !b) := List.mem_reverse.mp hx
      have hpx := List.mem_takeWhile_imp hx2
      simpa using hpx
    have hrep := List.eq_replicate_of_mem hall
    rwa [List.length_reverse] at hrep
  rw [dropTrailingFalses, ← h3]
  exact h2

theorem dtf_length_le (bits : List Bool) :
    (dropTrailingFalses bits).length ≤ bits.length := by
  conv_rhs => rw [dtf_decomposition bits]
  simp

theorem dtf_take (bits : List Bool) :
    dropTrailingFalses bits = bits.take (dropTrailingFalses bits).length := by
  have hk := dtf_decomposition bits
  set D := dropTrailingFalses bits with hD
  rw [hk, List.take_left' rfl]

theorem dtf_pad (bits : List Bool) (idx : Nat)
    (h : (dropTrailingFalses bits).length ≤ idx) :
    bits.getD idx false = false := by
  conv_lhs => rw [dtf_decomposition bits]
  rw [List.getD_eq_getElem?_getD, List.getElem?_append_right h,
    List.getElem?_replicate]
  by_cases hlt : idx - (dropTrailingFalses bits).length <
      (bits.reverse.takeWhile (fun b => !b)).length <;> simp [hlt]

theorem dtf_getLast_true (bits : List Bool)
    (h : 0 < (dropTrailingFalses bits).length) :
    (dropTrailingFalses bits).getLast? = some true := by
  have hne : bits.reverse.dropWhile (fun b => !b) ≠ [] := by
    intro hc
    rw [dropTrailingFalses, hc] at h
    simp at h
  cases he : (bits.reverse.dropWhile (fun b => !b)).head? with
  | none => exact absurd (List.head?_eq_none_iff.mp he) hne
  | some x =>
      have hp := List.head?_dropWhile_not (fun b => !b) bits.reverse
      rw [he] at hp
      have hp2 : (!x) = false := hp
      have hx : x = true := by simpa using hp2
      rw [dropTrailingFalses, List.getLast?_reverse, he, hx]

theorem dtf_last_bit_true (bits : List Bool)
    (h : 0 < (dropTrailingFalses bits).length) :
    bits.getD ((dropTrailingFalses bits).length - 1) false = true := by
  have hl := dtf_getLast_true bits h
  rw [List.getLast?_eq_getElem?] at hl
  have hk := dtf_decomposition bits
  set D := dropTrailingFalses bits with hD
  rw [hk, List.getD_eq_getElem?_getD, List.getElem?_append_left (by omega), hl]
  rfl

theorem dtf_eq_self_of_getLast_true (bits : List Bool)
    (h : bits.getLast? = some true) : dropTrailingFalses bits = bits := by
  rw [dropTrailingFalses]
  cases hr : bits.reverse with
  | nil =>
      have : bits = [] := by simpa using congrArg List.reverse hr
      rw [this] at h
      simp at h
  | cons a l =>
      have hha : bits.reverse.head? = some a := by rw [hr]; rfl
      rw [List.head?_reverse, h] at hha
      have ha : a = true := by simpa using hha.symm
      subst ha
      have hdw : List.dropWhile (fun b => !b) (true :: l) = true :: l :=
        List.dropWhile_cons_of_neg (by simp)
      rw [hdw, ← hr, List.reverse_reverse]

/-! ### The decoder's bit count -/

theorem trailingZeros8_eq (v t0 : Nat) (h0 : t0 ≤ 7)
    (h1 : v.testBit t0 = true) (h2 : ∀ t, t < t0 → v.testBit t = false) :
    trailingZeros8 v = t0 := by
  interval_cases t0 <;> simp_all [trailingZeros8]

theorem packBytes_getLast? (bits : List Bool) (h : bits ≠ []) :
    (packBytes bits).getLast? =
      some ((packBytes bits).getD ((packBytes bits).length - 1) 0) := by
  have hn : 0 < bits.length := List.length_pos.mpr h
  have hm : 0 < (packBytes bits).length := by
    rw [length_packBytes]
    omega
  rw [List.getLast?_eq_getElem?]
  simp [List.getElem?_eq_getElem (show (packBytes bits).length - 1 <
    (packBytes bits).length from by omega)]

theorem shiftRead_eq_testBit (v k : Nat) :
    ((v >>> k) &&& 1 != 0) = v.testBit k := by
  show ((v >>> k) &&& 1 != 0) = (1 &&& (v >>> k) != 0)
  rw [Nat.and_comm]

theorem range_map_getD (d : Nat) (bits : List Bool) (h : d ≤ bits.length) :
    (List.range d).map (fun i => bits.getD i false) = bits.take d := by
  apply List.ext_getElem
  · simp [List.length_take]
    omega
  · intro i h1 h2
    simp only [List.getElem_map, List.getElem_range, List.getElem_take]
    rw [List.getD_eq_getElem?_getD]
    rw [List.getElem?_eq_getElem (show i < bits.length from by
      simp [List.length_take] at h2
      omega)]
    rfl

/-! ### C6: the encode/decode round trip -/

/-- C6 counterexample.  For `B = [true]` followed by eight `false` bits the
encoder emits `[0x80, 0x00]`; the decoder's constructor asserts the last byte
is non-zero, so decoding fails (modelled as `none`) instead of yielding `B`
with its trailing `false` run removed. -/
theorem c6_roundtrip_counterexample :
    smbDecode (smbFromIterator
        [true, false, false, false, false, false, false, false, false]) = none ∧
    smbDecode (smbFromIterator
        [true, false, false, false, false, false, false, false, false]) ≠
      some (dropTrailingFalses
        [true, false, false, false, false, false, false, false, false]) :=
  ⟨by decide, by decide⟩

/-- C6 (amended).  For every finite boolean sequence `B` whose encoding does not
end in a zero byte (equivalently, whose maximal trailing `false` run does not
fill the final encoded byte — in particular whenever `B` is empty or ends in
`true`), decoding the bitmap produced by encoding `B` yields exactly `B` with
its maximal trailing run of `false` removed.  When the trailing run fills the
final byte the decoder instead rejects the bitmap (its zero-last-byte
assertion), as the counterexample shows. -/
theorem c6_roundtrip_amended (bits : List Bool)
    (h : (smbFromIterator bits).getLast? ≠ some 0) :
    smbDecode (smbFromIterator bits) = some (dropTrailingFalses bits) := by
  rw [smbFromIterator_eq_packBytes] at h ⊢
  by_cases hnil : bits = []
  · subst hnil
    simp [packBytes, smbDecode, dropTrailingFalses]
  · have hn : 0 < bits.length := List.length_pos.mpr hnil
    have hmlen := length_packBytes bits
    have hm : 0 < (packBytes bits).length := by omega
    have hbound : bits.length ≤ 8 * (packBytes bits).length := by omega
    have hlasteq := packBytes_getLast? bits hnil
    have hlb : (packBytes bits).getD ((packBytes bits).length - 1) 0 ≠ 0 := by
      intro hc
      rw [hlasteq, hc] at h
      exact h rfl
    have hdle : (dropTrailingFalses bits).length ≤ bits.length :=
      dtf_length_le bits
    have hstepA : 8 * ((packBytes bits).length - 1) <
        (dropTrailingFalses bits).length := by
      by_contra hA
      push_neg at hA
      apply hlb
      apply Nat.eq_of_testBit_eq
      intro i
      rw [Nat.zero_testBit]
      cases hres : ((packBytes bits).getD ((packBytes bits).length - 1) 0).testBit i with
      | false => rfl
      | true =>
          exfalso
          rw [packBytes_getD] at hres
          have hglen : ((bits.drop (8 * ((packBytes bits).length - 1))).take 8).length ≤ 8 := by
            simp [List.length_take]
          obtain ⟨j, hj, hgj, htj⟩ :=
            (packByte_testBit ((bits.drop (8 * ((packBytes bits).length - 1))).take 8)
              0 i (by omega)).mp hres
          have hj8 : j < 8 := by omega
          rw [take_drop_getD bits ((packBytes bits).length - 1) j hj8,
            dtf_pad bits _ (by omega)] at hgj
          simp at hgj
    have hd1 : 0 < (dropTrailingFalses bits).length := by omega
    have htz : trailingZeros8
        ((packBytes bits).getD ((packBytes bits).length - 1) 0) =
        8 * (packBytes bits).length - (dropTrailingFalses bits).length := by
      apply trailingZeros8_eq
      · omega
      · have hq : ((dropTrailingFalses bits).length - 1) / 8 =
            (packBytes bits).length - 1 := by omega
        have hr : 7 - ((dropTrailingFalses bits).length - 1) % 8 =
            8 * (packBytes bits).length - (dropTrailingFalses bits).length := by
          omega
        have hbit := encoder_testBit bits ((dropTrailingFalses bits).length - 1)
        rw [hq, hr] at hbit
        rw [hbit]
        exact dtf_last_bit_true bits hd1
      · intro t ht
        have h7 : t ≤ 7 := by omega
        have hq : (8 * ((packBytes bits).length - 1) + (7 - t)) / 8 =
            (packBytes bits).length - 1 := by omega
        have hr : 7 - (8 * ((packBytes bits).length - 1) + (7 - t)) % 8 = t := by
          omega
        have hbit := encoder_testBit bits
          (8 * ((packBytes bits).length - 1) + (7 - t))
        rw [hq, hr] at hbit
        rw [hbit]
        exact dtf_pad bits _ (by omega)
    simp only [smbDecode, hlasteq]
    rw [if_neg hlb, htz]
    have hlen2 : (packBytes bits).length * 8 -
        (8 * (packBytes bits).length - (dropTrailingFalses bits).length) =
        (dropTrailingFalses bits).length := by omega
    rw [hlen2]
    congr 1
    have hfun : ∀ index : Nat,
        ((((packBytes bits).getD (index / 8) 0) >>> (7 - index % 8)) &&& 1 != 0) =
        bits.getD index false := by
      intro index
      rw [shiftRead_eq_testBit, encoder_testBit]
    simp only [hfun]
    rw [range_map_getD _ _ (by omega), ← dtf_take]

theorem c6_roundtrip_amended_witness :
    (smbFromIterator [true, false]).getLast? ≠ some 0 ∧
    smbDecode (smbFromIterator [true, false]) =
      some (dropTrailingFalses [true, false]) :=
  ⟨by decide, c6_roundtrip_amended [true, false] (by decide)⟩

/-! ### C7: the encoder's last byte -/

/-- C7 counterexample.  The encoder applied to the sequence `[false]` produces
the single byte `0`: the encoder can produce a bitmap whose last byte is
zero, contrary to the claim. -/
theorem c7_last_byte_counterexample :
    smbFromIterator [false] = [0] ∧
    (smbFromIterator [false]).getLast? = some 0 :=
  ⟨by decide, by decide⟩

/-- C7 (amended).  For every non-empty boolean sequence whose last element is
`true` — the canonical sibling-flag form, since the bottom-most sibling is
always non-default — the byte vector produced by the encoder never has a zero
last byte.  For sequences whose trailing `false` run fills the last byte the
encoder does emit a zero last byte, as the counterexample shows. -/
theorem c7_last_byte_amended (bits : List Bool)
    (h : bits.getLast? = some true) :
    (smbFromIterator bits).getLast? ≠ some 0 := by
  rw [smbFromIterator_eq_packBytes]
  have hne : bits ≠ [] := by
    intro hc
    rw [hc] at h
    simp at h
  have hn : 0 < bits.length := List.length_pos.mpr hne
  have hdtf : dropTrailingFalses bits = bits := dtf_eq_self_of_getLast_true bits h
  have hmlen := length_packBytes bits
  have hm : 0 < (packBytes bits).length := by omega
  rw [packBytes_getLast? bits hne]
  intro hc
  have h0 : (packBytes bits).getD ((packBytes bits).length - 1) 0 = 0 :=
    Option.some.inj hc
  have hq : (bits.length - 1) / 8 = (packBytes bits).length - 1 := by omega
  have hbit := encoder_testBit bits (bits.length - 1)
  rw [hq, h0] at hbit
  have hlast : bits.getD (bits.length - 1) false = true := by
    have hx := dtf_last_bit_true bits (by rw [hdtf]; omega)
    rwa [hdtf] at hx
  rw [hlast] at hbit
  simp at hbit

theorem c7_last_byte_amended_witness :
    ([false, true] : List Bool).getLast? = some true ∧
    (smbFromIterator [false, true]).getLast? ≠ some 0 :=
  ⟨by decide, c7_last_byte_amended [false, true] (by decide)⟩

end JellyfishMerkle
